import Mathlib

/-!
Shallow embedding of the core subsystems of the mcp-rustdoc MCP server:

* the in-memory LRU cache with stale-while-revalidate (src/cache.ts),
* the retrying fetch layer (fetchWithRetry / fetchText in lib.ts),
* the item index scoring pass (searchAllItems in lib.ts) and the
  search_crate tool with its Levenshtein fuzzy fallback,
* module-path auto-discovery (lookup-item.ts / batch-lookup.ts),
* the docs URL builders (docsUrl / stdDocsUrl / crateSlug).

JavaScript strings are modelled as `List Char`; the JS string methods used
by the source (toLowerCase, includes, startsWith, split) are given explicit
models below, accurate on the ASCII range the source works with. Time is an
explicit `Nat` parameter standing for Date.now(); a JS Map is an
insertion-ordered association list, matching Map iteration order.
-/

namespace Mcp

/-- Model of the character-level part of String.prototype.toLowerCase:
ASCII uppercase letters are shifted down by 32, everything else is kept.
(The JS method is Unicode aware; the source only compares ASCII names.) -/
def jsCharToLower (c : Char) : Char :=
  if 65 ≤ c.toNat ∧ c.toNat ≤ 90 then Char.ofNat (c.toNat + 32) else c

/-- Model of String.prototype.toLowerCase. -/
def jsToLower (s : List Char) : List Char := s.map jsCharToLower

/-- Model of haystack.includes(needle): substring containment. -/
def jsIncludes (haystack needle : List Char) : Bool :=
  needle.isPrefixOf haystack ||
    match haystack with
    | [] => false
    | _ :: t => jsIncludes t needle

/-- Model of s.startsWith(t). -/
def jsStartsWith (s t : List Char) : Bool := t.isPrefixOf s

/-- Model of name.split('::') for JS String.prototype.split with the fixed
two-character separator used throughout the source. -/
def splitDC : List Char → List (List Char)
  | [] => [[]]
  | [c] => [[c]]
  | c1 :: c2 :: rest =>
    if c1 = ':' ∧ c2 = ':' then [] :: splitDC rest
    else
      match splitDC (c2 :: rest) with
      | [] => [[c1]]
      | s :: ss => (c1 :: s) :: ss

-- ─── src/cache.ts ────────────────────────────────────────

/-- DEFAULT_TTL from src/cache.ts: 5 minutes in milliseconds. -/
def DEFAULT_TTL : Nat := 5 * 60 * 1000

/-- STALE_GRACE from src/cache.ts: 15 minutes in milliseconds. -/
def STALE_GRACE : Nat := 15 * 60 * 1000

/-- MAX_ENTRIES from src/cache.ts. -/
def MAX_ENTRIES : Nat := 500

/-- CacheEntry from src/cache.ts; timestamps are Nat milliseconds. -/
structure CacheEntry (T : Type) where
  data : T
  expiry : Nat
  staleExpiry : Nat
  lastAccess : Nat
deriving DecidableEq

/-- The module-level `store` Map, modelled as an insertion-ordered
association list (JS Map iterates in insertion order). -/
abbrev Store (T : Type) := List (String × CacheEntry T)

/-- Map.prototype.get. -/
def storeGet {T : Type} (s : Store T) (k : String) : Option (CacheEntry T) :=
  (s.find? (fun p => decide (p.1 = k))).map (·.2)

/-- Map.prototype.set: updates an existing key in place (keeping its
position in iteration order), otherwise appends. -/
def storeSet {T : Type} (s : Store T) (k : String) (e : CacheEntry T) : Store T :=
  if (s.find? (fun p => decide (p.1 = k))).isSome then
    s.map (fun p => if p.1 = k then (k, e) else p)
  else s ++ [(k, e)]

/-- Map.prototype.delete. -/
def storeDelete {T : Type} (s : Store T) (k : String) : Store T :=
  s.filter (fun p => decide (p.1 ≠ k))

/-- cacheGet from src/cache.ts. Date.now() is the explicit `now` argument;
the returned pair is (returned value, store after the call). -/
def cacheGet {T : Type} (s : Store T) (key : String) (now : Nat) : Option T × Store T :=
  match storeGet s key with
  | none => (none, s)
  | some entry =>
    if now > entry.staleExpiry then (none, storeDelete s key)
    else (some entry.data, storeSet s key { entry with lastAccess := now })

/-- cacheIsStale from src/cache.ts. -/
def cacheIsStale {T : Type} (s : Store T) (key : String) (now : Nat) : Bool :=
  match storeGet s key with
  | none => true
  | some entry => decide (now > entry.expiry)

/-- The scan inside evictLru: starting best candidate `q` (key, lastAccess),
keep the strictly-smaller lastAccess as the loop walks the map, so the
first-encountered minimum wins ties. -/
def lruGo {T : Type} (q : String × Nat) : Store T → String × Nat
  | [] => q
  | p :: rest => lruGo (if p.2.lastAccess < q.2 then (p.1, p.2.lastAccess) else q) rest

/-- The full evictLru scan: `oldestAccess` starts at Infinity, so the first
entry always becomes the initial candidate. -/
def lruFold {T : Type} : Store T → Option (String × Nat)
  | [] => none
  | p :: rest => some (lruGo (p.1, p.2.lastAccess) rest)

/-- evictLru from src/cache.ts. The guard `if (oldestKey)` is falsy for the
empty-string key, so such a key is never deleted (the source's while loop
would then spin forever; see evictWhile). -/
def evictLru {T : Type} (s : Store T) : Store T :=
  match lruFold s with
  | none => s
  | some (k, _) => if k = "" then s else storeDelete s k

/-- Fuel-indexed unfolding of `while (store.size >= MAX_ENTRIES) evictLru()`.
If an iteration makes no progress the source loop never terminates; the
model stops and returns the store unchanged at exactly those states. -/
def evictWhileFuel {T : Type} (maxEntries : Nat) : Nat → Store T → Store T
  | 0, s => s
  | fuel + 1, s =>
    if maxEntries ≤ s.length then
      let s' := evictLru s
      if s'.length < s.length then evictWhileFuel maxEntries fuel s' else s
    else s

/-- The eviction loop of cacheSet, with enough fuel to run to completion. -/
def evictWhile {T : Type} (maxEntries : Nat) (s : Store T) : Store T :=
  evictWhileFuel maxEntries (s.length + 1) s

/-- cacheSet from src/cache.ts with the capacity bound as an explicit
parameter (the source fixes it to MAX_ENTRIES = 500). -/
def cacheSetWith {T : Type} (maxEntries : Nat) (s : Store T) (key : String) (data : T)
    (now ttl : Nat) : Store T :=
  let s' := evictWhile maxEntries s
  storeSet s' key ⟨data, now + ttl, now + STALE_GRACE, now⟩

/-- cacheSet from src/cache.ts at the source's capacity MAX_ENTRIES. -/
def cacheSet {T : Type} (s : Store T) (key : String) (data : T) (now ttl : Nat) : Store T :=
  cacheSetWith MAX_ENTRIES s key data now ttl

-- ─── lib.ts: HTTP helpers ────────────────────────────────

/-- The failure modes a fetch operation can surface: the HttpError class
thrown on a non-ok status, the abort error produced when the timeout fires
(an AbortController abort is not an HttpError), and anything else. -/
inductive FetchError
  | httpError (status : Nat)
  | abortError
  | otherError
deriving DecidableEq

/-- The retry classification inside fetchWithRetry:
`e instanceof HttpError && e.status >= 500`. -/
def isRetryable (e : FetchError) : Bool :=
  match e with
  | .httpError status => decide (500 ≤ status)
  | _ => false

/-- One fetch attempt is a pure outcome; an operation is the map from the
attempt index to its outcome. fetchWithRetryAux runs the loop from attempt
`i` with `left` further attempts allowed, and also records the delays slept
(`baseDelay * (i + 1)` after the failure of attempt `i`). -/
def fetchWithRetryAux {A : Type} (fn : Nat → Except FetchError A) (baseDelay : Nat) :
    Nat → Nat → Except FetchError A × List Nat
  | i, 0 => (fn i, [])
  | i, left + 1 =>
    match fn i with
    | .ok v => (.ok v, [])
    | .error e =>
      if isRetryable e then
        let r := fetchWithRetryAux fn baseDelay (i + 1) left
        (r.1, baseDelay * (i + 1) :: r.2)
      else (.error e, [])

/-- fetchWithRetry from lib.ts (source defaults: retries = 2,
baseDelay = 500). Returns the final outcome and the list of backoff delays
actually slept, in order. -/
def fetchWithRetry {A : Type} (fn : Nat → Except FetchError A) (retries baseDelay : Nat) :
    Except FetchError A × List Nat :=
  fetchWithRetryAux fn baseDelay 0 retries

/-- The observable outcome of one underlying HTTP request issued by
fetchText: either the deadline elapsed (controller.abort() fired) or a
response with a status arrived. -/
inductive HttpOutcome
  | timedOut
  | response (status : Nat) (body : String)

/-- Response.ok: status in the inclusive range 200..299. -/
def resOk (status : Nat) : Bool := decide (200 ≤ status) && decide (status ≤ 299)

/-- fetchText from lib.ts as a function of the request outcome: a timeout
aborts the fetch, which rejects with an abort error (not HttpError); a
non-ok status throws HttpError(status); otherwise the body is returned. -/
def fetchText (r : HttpOutcome) : Except FetchError String :=
  match r with
  | .timedOut => .error .abortError
  | .response status body => if resOk status then .ok body else .error (.httpError status)

-- ─── search scoring (search_crate tool and lib.ts) ──────

/-- Extraction of the bare item name from a possibly qualified path:
`s.includes('::') ? s.split('::').pop()! : s`. -/
def rawBareName (s : List Char) : List Char :=
  if jsIncludes s [':', ':'] then (splitDC s).getLastD s else s

/-- The five-tier score cascade shared by scoreMatch and the inline scoring
in searchAllItems, over the already lower-cased query, full path and bare
name: 100 / 95 / 60 / 55 / 20, anything else 0. -/
def itemScore (q lower bareNameLower : List Char) : Nat :=
  if bareNameLower = q then 100
  else if lower = q then 95
  else if jsStartsWith bareNameLower q then 60
  else if jsStartsWith lower q then 55
  else if jsIncludes lower q then 20
  else 0

/-- scoreMatch from the search_crate tool: the name and query are
lower-cased and the bare name is the final :: segment of the lowered
name. -/
def scoreMatch (name query : List Char) : Nat :=
  let lower := jsToLower name
  let q := jsToLower query
  let bareName := rawBareName lower
  itemScore q lower bareName

/-- ItemLocation plus the score, as built by searchAllItems in lib.ts. -/
structure ScoredItem where
  type : List Char
  name : List Char
  path : List Char
  modulePath : List Char
  bareName : List Char
  score : Nat
deriving DecidableEq

/-- The modulePath computation in searchAllItems:
`parts.length > 1 ? parts.slice(0, -1).join('.') : ''`. -/
def modulePathOf (name : List Char) : List Char :=
  let parts := splitDC name
  if 1 < parts.length then List.intercalate ['.'] parts.dropLast else []

/-- The sort comparator used on scored results:
`(a, b) => b.score - a.score || a.name.localeCompare(b.name)`, i.e. score
descending then name ascending (localeCompare modelled as lexicographic
order on the character list). -/
def rScored (a b : ScoredItem) : Prop :=
  b.score < a.score ∨ (a.score = b.score ∧ a.name ≤ b.name)

instance : DecidableRel rScored := fun a b => by unfold rScored; infer_instance

/-- The loop body of searchAllItems in lib.ts for one (type, name) pair:
score the item against the already lower-cased query `q` exactly as the
source does inline, and keep it only when the score is positive. -/
def searchItemEntry (q : List Char) (it : List Char × List Char) : Option ScoredItem :=
  let type := it.1
  let name := it.2
  let lower := jsToLower name
  let bareName := rawBareName name
  let bareNameLower := jsToLower bareName
  let score := itemScore q lower bareNameLower
  if 0 < score then
    some { type := type, name := name, path := name,
           modulePath := modulePathOf name, bareName := bareName, score := score }
  else none

/-- searchAllItems from lib.ts, as a function of the (type, name) pairs
parsed out of the all.html listing. Items are scored inline exactly as the
source does, zero scores are dropped, and the survivors are sorted with the
stable comparator sort modelled by insertion sort. -/
def searchAllItemsOn (items : List (List Char × List Char)) (query : List Char) :
    List ScoredItem :=
  List.insertionSort rScored (items.filterMap (searchItemEntry (jsToLower query)))

/-- The modulePath auto-discovery step shared by lookup-item.ts and
batch-lookup.ts: the first hit whose bare name equals the requested item
name case-insensitively and whose type matches, else the first hit whose
bare name equals the item name, else none. -/
def autoDiscover (hits : List ScoredItem) (itemName itemType : List Char) :
    Option ScoredItem :=
  match hits.find? (fun h =>
      decide (jsToLower h.bareName = jsToLower itemName) && decide (h.type = itemType)) with
  | some h => some h
  | none => hits.find? (fun h => decide (jsToLower h.bareName = jsToLower itemName))

-- ─── levenshtein (lib.ts) ───────────────────────────────

/-- The inner loop of lib.ts's levenshtein: one pass over the remaining
characters of `b` paired with the old dp values from index j on, carrying
`diag` (the old dp[j-1], the source's `prev`) and `left` (the freshly
written dp[j-1]). -/
def levRowGo (ai : Char) : List Char → List Nat → Nat → Nat → List Nat
  | [], _, _, _ => []
  | _ :: _, [], _, _ => []
  | bj :: bs, dj :: rest, diag, left =>
    let vj := if ai = bj then diag else 1 + min diag (min dj left)
    vj :: levRowGo ai bs rest dj vj

/-- One outer-loop iteration: dp[0] becomes i, then the inner loop runs. -/
def levNextRow (ai : Char) (bs : List Char) (row : List Nat) (i : Nat) : List Nat :=
  match row with
  | [] => [i]
  | d0 :: rest => i :: levRowGo ai bs rest d0 i

/-- The outer loop of levenshtein over the characters of `a`. -/
def levLoop (bs : List Char) : List Char → Nat → List Nat → List Nat
  | [], _, row => row
  | ai :: as', i, row => levLoop bs as' (i + 1) (levNextRow ai bs row i)

/-- levenshtein from lib.ts: the single-row dynamic program, started from
dp = [0..n] and returning dp[n]. -/
def levenshtein (a b : List Char) : Nat :=
  if a.length = 0 then b.length
  else if b.length = 0 then a.length
  else (levLoop b a 1 (List.range (b.length + 1))).getLastD 0

-- ─── search_crate tool (with fuzzy fallback) ────────────

/-- SearchHit from the search_crate tool. -/
structure SearchHit where
  type : List Char
  name : List Char
  href : List Char
  score : Nat
deriving DecidableEq

/-- The final result comparator of search_crate, same shape as rScored. -/
def rSearchHit (a b : SearchHit) : Prop :=
  b.score < a.score ∨ (a.score = b.score ∧ a.name ≤ b.name)

instance : DecidableRel rSearchHit := fun a b => by unfold rSearchHit; infer_instance

/-- The primary scoring pass of search_crate over the parsed
(type, name, href) triples: scoreMatch each name, keep positive scores. -/
def primaryHit (query : List Char) (it : List Char × List Char × List Char) :
    Option SearchHit :=
  let score := scoreMatch it.2.1 query
  if 0 < score then some ⟨it.1, it.2.1, it.2.2, score⟩ else none

/-- The primary scoring pass over all parsed items. -/
def primaryHits (items : List (List Char × List Char × List Char)) (query : List Char) :
    List SearchHit :=
  items.filterMap (primaryHit query)

/-- Math.ceil(maxLen * 0.4) of the source, computed over Nat: for every
length that fits in a JS number the double-precision product rounds to a
value with the same ceiling as the exact 2*maxLen/5. -/
def fuzzyThreshold (maxLen : Nat) : Nat := (2 * maxLen + 4) / 5

/-- The fuzzy candidate scan of search_crate: lower-cased bare name against
lower-cased query, Levenshtein distance, accepted when within the ~40%
threshold; accepted hits carry score 10 and their distance. -/
def fuzzyCandidate (q : List Char) (it : List Char × List Char × List Char) :
    Option (SearchHit × Nat) :=
  let name := it.2.1
  let bareName := jsToLower (rawBareName name)
  let dist := levenshtein bareName q
  let maxLen := max bareName.length q.length
  if dist ≤ fuzzyThreshold maxLen then some (⟨it.1, name, it.2.2, 10⟩, dist) else none

/-- The fuzzy scan over all parsed items, against the lower-cased query. -/
def fuzzyCandidates (items : List (List Char × List Char × List Char)) (query : List Char) :
    List (SearchHit × Nat) :=
  items.filterMap (fuzzyCandidate (jsToLower query))

/-- Ascending-distance comparator `(a, b) => a.dist - b.dist`. -/
def rDist (a b : SearchHit × Nat) : Prop := a.2 ≤ b.2

instance : DecidableRel rDist := fun a b => by unfold rDist; infer_instance

/-- The fuzzy fallback set: candidates sorted by increasing distance
(stable sort) and capped with slice(0, 20). -/
def fuzzyList (items : List (List Char × List Char × List Char)) (query : List Char) :
    List (SearchHit × Nat) :=
  (List.insertionSort rDist (fuzzyCandidates items query)).take 20

/-- The full hit computation of the search_crate tool: primary pass, fuzzy
fallback exactly when the primary pass found nothing and the item list is
non-empty, then the final score-descending / name-ascending sort. -/
def searchCrateHits (items : List (List Char × List Char × List Char)) (query : List Char) :
    List SearchHit :=
  let hits := primaryHits items query
  let hits' :=
    if hits = [] ∧ items ≠ [] then hits ++ (fuzzyList items query).map (·.1)
    else hits
  List.insertionSort rSearchHit hits'

-- ─── URL helpers (lib.ts) ───────────────────────────────

/-- crateSlug from lib.ts: every hyphen in the name becomes an underscore. -/
def crateSlug (name : List Char) : List Char :=
  name.map (fun c => if c = '-' then '_' else c)

/-- STD_CRATES membership test from lib.ts. -/
def isStdCrate (name : List Char) : Bool :=
  decide (name = "std".data) || decide (name = "core".data) || decide (name = "alloc".data)

/-- DOCS_BASE from lib.ts. -/
def DOCS_BASE : List Char := "https://docs.rs".data

/-- stdDocsUrl from lib.ts; note the version never appears. -/
def stdDocsUrl (crate path : List Char) : List Char :=
  "https://doc.rust-lang.org/stable/".data ++ crate ++ "/".data ++ path

/-- docsUrl from lib.ts. -/
def docsUrl (crate path version : List Char) : List Char :=
  if isStdCrate crate then stdDocsUrl crate path
  else DOCS_BASE ++ "/".data ++ crate ++ "/".data ++ version ++ "/".data
    ++ crateSlug crate ++ "/".data ++ path

/-- The cache key used by fetchDom in lib.ts. -/
def fetchDomKey (url : List Char) : List Char := "dom:".data ++ url

end Mcp

-- ─── Helper lemmas: retry loop ──────────────────────────

namespace Mcp

/-- When every attempt before index `i + left` fails with a retryable error,
the loop walks through all of them, sleeping the linearly growing delays,
and ends on the outcome of the final attempt. -/
theorem fetchWithRetryAux_all_retryable {A : Type} (fn : Nat → Except FetchError A)
    (baseDelay : Nat) :
    ∀ (left i : Nat),
      (∀ j, i ≤ j → j < i + left → ∃ e, fn j = .error e ∧ isRetryable e = true) →
      fetchWithRetryAux fn baseDelay i left
        = (fn (i + left), (List.range' (i + 1) left).map (fun j => baseDelay * j)) := by
  intro left
  induction left with
  | zero => intro i _; simp [fetchWithRetryAux]
  | succ left ih =>
    intro i hfail
    obtain ⟨e, he, hr⟩ := hfail i (Nat.le_refl i) (by omega)
    rw [fetchWithRetryAux, he]
    simp only [hr, if_true]
    rw [ih (i + 1) (fun j h1 h2 => hfail j (by omega) (by omega))]
    rw [List.range'_succ]
    simp only [List.map_cons]
    have : i + 1 + left = i + (left + 1) := by omega
    rw [this]

/-- A first-attempt failure that is not retryable propagates at once, with
no delay slept. -/
theorem fetchWithRetry_first_fail_not_retryable {A : Type} (fn : Nat → Except FetchError A)
    (retries baseDelay : Nat) (e : FetchError) (hf : fn 0 = .error e)
    (hnr : isRetryable e = false) :
    fetchWithRetry fn retries baseDelay = (.error e, []) := by
  rw [fetchWithRetry]
  cases retries with
  | zero => rw [fetchWithRetryAux, hf]
  | succ left => rw [fetchWithRetryAux, hf]; simp [hnr]

end Mcp

namespace Mcp

/-- C5: fetchWithRetry re-invokes the operation only on an HttpError with
status >= 500; any other failure propagates immediately with no retry and
no delay; the delay before retry attempt i (1-indexed) is baseDelay * i;
after walking through all retryable failures the outcome of the last
attempt (success or failure) is surfaced; hence an operation failing with
500 on every attempt before the last and succeeding on attempt `retries`
returns the success, and a 404 on the first attempt is never retried. -/
theorem c5_retry_policy :
    (∀ (A : Type) (fn : Nat → Except FetchError A) (retries baseDelay : Nat) (e : FetchError),
       fn 0 = .error e → isRetryable e = false →
       fetchWithRetry fn retries baseDelay = (.error e, [])) ∧
    (∀ (A : Type) (fn : Nat → Except FetchError A) (retries baseDelay : Nat),
       (∀ i, i < retries → ∃ e, fn i = .error e ∧ isRetryable e = true) →
       fetchWithRetry fn retries baseDelay
         = (fn retries, (List.range' 1 retries).map (fun j => baseDelay * j))) ∧
    (∀ (A : Type) (fn : Nat → Except FetchError A) (retries baseDelay : Nat) (v : A),
       (∀ i, i < retries → fn i = .error (.httpError 500)) → fn retries = .ok v →
       (fetchWithRetry fn retries baseDelay).1 = .ok v) ∧
    (∀ (A : Type) (fn : Nat → Except FetchError A) (retries baseDelay : Nat),
       fn 0 = .error (.httpError 404) →
       fetchWithRetry fn retries baseDelay = (.error (.httpError 404), [])) := by
  refine ⟨?_, ?_, ?_, ?_⟩
  · intro A fn retries baseDelay e hf hnr
    exact fetchWithRetry_first_fail_not_retryable fn retries baseDelay e hf hnr
  · intro A fn retries baseDelay hfail
    rw [fetchWithRetry]
    rw [fetchWithRetryAux_all_retryable fn baseDelay retries 0
      (fun j h1 h2 => hfail j (by omega))]
    simp
  · intro A fn retries baseDelay v hfail hok
    rw [fetchWithRetry]
    rw [fetchWithRetryAux_all_retryable fn baseDelay retries 0
      (fun j h1 h2 => ⟨.httpError 500, hfail j (by omega), by decide⟩)]
    simpa using hok
  · intro A fn retries baseDelay hf
    exact fetchWithRetry_first_fail_not_retryable fn retries baseDelay _ hf (by decide)

/-- C5 witness: a 404 at the first attempt is surfaced unretried; a 500
that fails twice then succeeds on the third attempt (retries = 2) returns
the success; a permanently failing 503 exhausts the budget sleeping the
linear delays 100, 200. -/
theorem c5_retry_policy_witness :
    fetchWithRetry (fun _ => (.error (.httpError 404) : Except FetchError Nat)) 2 100
      = (.error (.httpError 404), []) ∧
    (fetchWithRetry (fun i => if i < 2 then .error (.httpError 500) else .ok 7) 2 100).1
      = .ok 7 ∧
    fetchWithRetry (fun _ => (.error (.httpError 503) : Except FetchError Nat)) 2 100
      = (.error (.httpError 503), [100, 200]) := by
  refine ⟨?_, ?_, ?_⟩
  · exact c5_retry_policy.2.2.2 Nat _ 2 100 rfl
  · exact c5_retry_policy.2.2.1 Nat _ 2 100 7 (fun i hi => by simp [hi]) (by simp)
  · have h := c5_retry_policy.2.1 Nat
      (fun _ => (.error (.httpError 503) : Except FetchError Nat)) 2 100
      (fun i _ => ⟨.httpError 503, rfl, by decide⟩)
    simpa [List.range'] using h

/-- C2 counterexample: a timeout is an abort error, not an HttpError, so it
is not classified as retryable; with the same budget a first-attempt
timeout surfaces immediately with no retry and no delay, while a
first-attempt 500 is retried and the operation then succeeds. -/
theorem c2_counterexample :
    fetchText .timedOut = .error .abortError ∧
    isRetryable .abortError = false ∧
    isRetryable (.httpError 500) = true ∧
    fetchWithRetry (fun i => if i = 0 then fetchText .timedOut else .ok "done") 2 500
      = (.error .abortError, []) ∧
    fetchWithRetry (fun i => if i = 0 then .error (.httpError 500) else .ok "done") 2 500
      = (.ok "done", [500]) :=
  ⟨rfl, rfl, by decide, rfl, rfl⟩

/-- C2 amended: a failure caused by the request deadline elapsing (the
abort error raised by fetchText on timeout) is NOT classified as transient:
only an HttpError with status >= 500 is retried, and a timeout on the first
attempt propagates immediately, with no retry and no backoff delay,
regardless of the remaining retry budget. -/
theorem c2_amended_timeout_not_retried :
    ∀ (A : Type) (fn : Nat → Except FetchError A) (retries baseDelay : Nat),
      fn 0 = .error .abortError →
      fetchWithRetry fn retries baseDelay = (.error .abortError, []) := by
  intro A fn retries baseDelay hf
  exact fetchWithRetry_first_fail_not_retryable fn retries baseDelay _ hf (by decide)

/-- C2 amended witness: a concrete operation that times out on its first
attempt and would succeed on its second is nevertheless not retried. -/
theorem c2_amended_timeout_not_retried_witness :
    fetchWithRetry (fun i => if i = 0 then fetchText .timedOut else .ok "body") 5 250
      = (.error .abortError, []) :=
  c2_amended_timeout_not_retried String _ 5 250 rfl

end Mcp

-- ─── Helper lemmas: URL builders ────────────────────────

namespace Mcp

/-- For a non-standard-library crate the URL splits around the version. -/
theorem docsUrl_nonstd {crate path version : List Char} (h : isStdCrate crate = false) :
    docsUrl crate path version
      = (DOCS_BASE ++ "/".data ++ crate ++ "/".data)
        ++ (version ++ ("/".data ++ crateSlug crate ++ "/".data ++ path)) := by
  simp [docsUrl, h, List.append_assoc]

/-- C10: for the standard-library crates (std, core, alloc) docsUrl ignores
its version argument, so every version (latest or pinned) produces the same
doc.rust-lang.org URL and hence the same fetchDom cache key; for any other
crate, distinct version strings produce distinct URLs and distinct cache
keys; the fetchDom cache key determines the URL exactly. -/
theorem c10_docs_url_version :
    (∀ crate path v v' : List Char, isStdCrate crate = true →
       docsUrl crate path v = docsUrl crate path v' ∧
       fetchDomKey (docsUrl crate path v) = fetchDomKey (docsUrl crate path v')) ∧
    (∀ crate path v v' : List Char, isStdCrate crate = false → v ≠ v' →
       docsUrl crate path v ≠ docsUrl crate path v' ∧
       fetchDomKey (docsUrl crate path v) ≠ fetchDomKey (docsUrl crate path v')) ∧
    (∀ u u' : List Char, fetchDomKey u = fetchDomKey u' ↔ u = u') := by
  have keyiff : ∀ u u' : List Char, fetchDomKey u = fetchDomKey u' ↔ u = u' := by
    intro u u'
    constructor
    · intro h
      exact List.append_cancel_left h
    · intro h
      rw [h]
  refine ⟨?_, ?_, keyiff⟩
  · intro crate path v v' h
    simp [docsUrl, h]
  · intro crate path v v' h hne
    have main : docsUrl crate path v ≠ docsUrl crate path v' := by
      intro heq
      rw [docsUrl_nonstd h, docsUrl_nonstd h] at heq
      have h2 := List.append_cancel_left heq
      exact hne (List.append_cancel_right h2)
    exact ⟨main, fun hk => main ((keyiff _ _).mp hk)⟩

/-- C10 witness: std ignores the version (latest and a pinned version give
one URL, hence one cache key), while a docs.rs crate gets distinct URLs and
distinct cache keys for distinct versions. -/
theorem c10_docs_url_version_witness :
    docsUrl "std".data "sync/index.html".data "latest".data
      = docsUrl "std".data "sync/index.html".data "1.82.0".data ∧
    fetchDomKey (docsUrl "std".data "sync/index.html".data "latest".data)
      = fetchDomKey (docsUrl "std".data "sync/index.html".data "1.82.0".data) ∧
    docsUrl "tokio".data "index.html".data "latest".data
      ≠ docsUrl "tokio".data "index.html".data "1.0.0".data ∧
    fetchDomKey (docsUrl "tokio".data "index.html".data "latest".data)
      ≠ fetchDomKey (docsUrl "tokio".data "index.html".data "1.0.0".data) := by
  obtain ⟨hstd, hkey⟩ :=
    c10_docs_url_version.1 "std".data "sync/index.html".data "latest".data "1.82.0".data
      (by decide)
  obtain ⟨hurl, hkey2⟩ :=
    c10_docs_url_version.2.1 "tokio".data "index.html".data "latest".data "1.0.0".data
      (by decide) (by decide)
  exact ⟨hstd, hkey, hurl, hkey2⟩

end Mcp

-- ─── Helper lemmas: store operations ────────────────────

namespace Mcp

/-- Setting a key whose head binding does not match commutes with cons. -/
theorem storeSet_cons_ne {T : Type} (p : String × CacheEntry T) (t : Store T)
    (k : String) (e : CacheEntry T) (hne : p.1 ≠ k) :
    storeSet (p :: t) k e = p :: storeSet t k e := by
  simp only [storeSet, List.find?_cons, decide_eq_false hne]
  by_cases h : (t.find? (fun q => decide (q.1 = k))).isSome
  · rw [if_pos h, if_pos h, List.map_cons, if_neg hne]
  · rw [if_neg h, if_neg h, List.cons_append]

/-- After storeSet, looking up the same key yields exactly the new entry. -/
theorem storeGet_storeSet_self {T : Type} (s : Store T) (k : String) (e : CacheEntry T) :
    storeGet (storeSet s k e) k = some e := by
  induction s with
  | nil =>
    rw [storeSet]
    simp [storeGet]
  | cons p t ih =>
    by_cases hpk : p.1 = k
    · rw [storeSet]
      have hfind : (List.find? (fun q => decide (q.1 = k)) (p :: t)).isSome := by
        simp [List.find?_cons, hpk]
      rw [if_pos hfind, List.map_cons, if_pos hpk]
      simp [storeGet, List.find?_cons]
    · rw [storeSet_cons_ne p t k e hpk]
      rw [storeGet, List.find?_cons]
      simp only [decide_eq_false hpk]
      exact ih

/-- After storeDelete, the deleted key is absent. -/
theorem storeGet_storeDelete_self {T : Type} (s : Store T) (k : String) :
    storeGet (storeDelete s k) k = none := by
  rw [storeGet, storeDelete]
  have : List.find? (fun p => decide (p.1 = k))
      (s.filter (fun p => decide (p.1 ≠ k))) = none := by
    rw [List.find?_eq_none]
    intro x hx
    have := List.of_mem_filter hx
    simp only [decide_eq_true_eq] at this ⊢
    exact this
  rw [this]
  rfl

/-- cacheSet stores exactly the entry built from now, ttl and STALE_GRACE. -/
theorem storeGet_cacheSetWith_self {T : Type} (m : Nat) (s : Store T) (k : String)
    (v : T) (now ttl : Nat) :
    storeGet (cacheSetWith m s k v now ttl) k = some ⟨v, now + ttl, now + STALE_GRACE, now⟩ := by
  rw [cacheSetWith]
  exact storeGet_storeSet_self _ k _

end Mcp

namespace Mcp

/-- C8 counterexample: cacheSet with a ttl one past the stale grace creates
an entry whose expiry (freshUntil) exceeds its staleExpiry (staleUntil),
because staleExpiry is always now + STALE_GRACE regardless of ttl. -/
theorem c8_counterexample :
    (storeGet (cacheSet ([] : Store Nat) "k" 0 0 (STALE_GRACE + 1)) "k").map
        (fun e => decide (e.expiry ≤ e.staleExpiry)) = some false := by decide

/-- C8 amended: the entry created by cacheSet(key, value, ttl) has
freshUntil = now + ttl and staleUntil = now + STALE_GRACE, so the invariant
staleUntil >= freshUntil holds exactly when ttl <= STALE_GRACE. It holds in
particular for the default ttl (DEFAULT_TTL = 5 min <= 15 min), which every
call site in the repository uses, but fails for any ttl argument larger
than the fixed stale grace. -/
theorem c8_amended_entry_invariant :
    ∀ (T : Type) (s : Store T) (key : String) (v : T) (now ttl : Nat) (e : CacheEntry T),
      storeGet (cacheSet s key v now ttl) key = some e →
      (e.expiry ≤ e.staleExpiry ↔ ttl ≤ STALE_GRACE) := by
  intro T s key v now ttl e h
  rw [cacheSet, storeGet_cacheSetWith_self] at h
  obtain rfl := (Option.some_inj.mp h).symm
  show now + ttl ≤ now + STALE_GRACE ↔ ttl ≤ STALE_GRACE
  omega

/-- C8 amended witness: under the default ttl the freshly created entry
satisfies the invariant, by the amended theorem at a concrete store. -/
theorem c8_amended_entry_invariant_witness :
    (CacheEntry.expiry ⟨(7 : Nat), 300000, 900000, 0⟩
        ≤ CacheEntry.staleExpiry ⟨(7 : Nat), 300000, 900000, 0⟩) ↔ DEFAULT_TTL ≤ STALE_GRACE :=
  c8_amended_entry_invariant Nat [] "k" 7 0 DEFAULT_TTL ⟨7, 300000, 900000, 0⟩ (by decide)

/-- C3: cacheGet returns the stored value exactly when now is at most the
entry's staleExpiry, and then updates lastAccess in place; when now exceeds
staleExpiry it deletes the entry and reports absent; cacheIsStale is true
exactly when the key is absent or now exceeds the entry's expiry; and the
spec scenario holds: a get right after set(k, v, DEFAULT_TTL) returns v,
in the window after the fresh ttl but within the stale grace isStale is
true while get still returns v, and past the stale grace get is absent. -/
theorem c3_cache_get_semantics :
    (∀ (T : Type) (s : Store T) (k : String) (now : Nat),
       (storeGet s k = none → cacheGet s k now = (none, s)) ∧
       (∀ e, storeGet s k = some e → now ≤ e.staleExpiry →
          (cacheGet s k now).1 = some e.data ∧
          storeGet (cacheGet s k now).2 k = some { e with lastAccess := now }) ∧
       (∀ e, storeGet s k = some e → e.staleExpiry < now →
          (cacheGet s k now).1 = none ∧ storeGet (cacheGet s k now).2 k = none) ∧
       (cacheIsStale s k now = true ↔ ∀ e, storeGet s k = some e → e.expiry < now)) ∧
    (∀ (T : Type) (s : Store T) (k : String) (v : T) (t0 : Nat),
       ((cacheGet (cacheSet s k v t0 DEFAULT_TTL) k t0).1 = some v) ∧
       (∀ t, t0 + DEFAULT_TTL < t → t ≤ t0 + STALE_GRACE →
          cacheIsStale (cacheSet s k v t0 DEFAULT_TTL) k t = true ∧
          (cacheGet (cacheSet s k v t0 DEFAULT_TTL) k t).1 = some v) ∧
       (∀ t, t0 + STALE_GRACE < t →
          (cacheGet (cacheSet s k v t0 DEFAULT_TTL) k t).1 = none)) := by
  constructor
  · intro T s k now
    refine ⟨?_, ?_, ?_, ?_⟩
    · intro h
      rw [cacheGet, h]
    · intro e he hle
      simp only [cacheGet, he]
      rw [if_neg (by omega)]
      exact ⟨rfl, storeGet_storeSet_self s k _⟩
    · intro e he hgt
      simp only [cacheGet, he]
      rw [if_pos (by omega)]
      exact ⟨rfl, storeGet_storeDelete_self s k⟩
    · cases h : storeGet s k with
      | none =>
        simp only [cacheIsStale, h]
        constructor
        · intro _ e he
          exact absurd he (by simp)
        · intro _
          trivial
      | some e =>
        simp only [cacheIsStale, h, decide_eq_true_eq]
        constructor
        · intro hlt e' he'
          obtain rfl := Option.some_inj.mp he'
          omega
        · intro hall
          exact hall e rfl
  · intro T s k v t0
    have hget : storeGet (cacheSet s k v t0 DEFAULT_TTL) k
        = some ⟨v, t0 + DEFAULT_TTL, t0 + STALE_GRACE, t0⟩ := by
      rw [cacheSet]
      exact storeGet_cacheSetWith_self _ s k v t0 DEFAULT_TTL
    refine ⟨?_, ?_, ?_⟩
    · simp only [cacheGet, hget]
      rw [if_neg (by omega)]
    · intro t h1 h2
      constructor
      · simp only [cacheIsStale, hget, decide_eq_true_eq]
        omega
      · simp only [cacheGet, hget]
        rw [if_neg (by omega)]
    · intro t h1
      simp only [cacheGet, hget]
      rw [if_pos (by omega)]

/-- C3 witness: the scenario instantiated at a singleton cache with the
source constants: set at time 0, get at 0 returns the value; at time
300001 the entry is stale but still served; at 900001 it is gone. -/
theorem c3_cache_get_semantics_witness :
    ((cacheGet (cacheSet ([] : Store Nat) "k" 7 0 DEFAULT_TTL) "k" 0).1 = some 7) ∧
    (cacheIsStale (cacheSet ([] : Store Nat) "k" 7 0 DEFAULT_TTL) "k" 300001 = true ∧
      (cacheGet (cacheSet ([] : Store Nat) "k" 7 0 DEFAULT_TTL) "k" 300001).1 = some 7) ∧
    ((cacheGet (cacheSet ([] : Store Nat) "k" 7 0 DEFAULT_TTL) "k" 900001).1 = none) := by
  have h := c3_cache_get_semantics.2 Nat [] "k" 7 0
  exact ⟨h.1, h.2.1 300001 (by decide) (by decide), h.2.2 900001 (by decide)⟩

end Mcp

-- ─── Helper lemmas: empty-query scoring ─────────────────

namespace Mcp

/-- Splitting the empty name gives the empty bare name. -/
theorem rawBareName_nil : rawBareName [] = [] := rfl

/-- The item record built by the searchAllItems loop for a pair, at a
given score. -/
def emptyQueryItem (it : List Char × List Char) (sc : Nat) : ScoredItem :=
  { type := it.1, name := it.2, path := it.2, modulePath := modulePathOf it.2,
    bareName := rawBareName it.2, score := sc }

/-- Against the empty query, every item is kept: a non-empty bare name
prefix-matches the empty string (score 60), an empty bare name equals it
(score 100). -/
theorem searchItemEntry_empty (it : List Char × List Char) :
    ∃ item, searchItemEntry [] it = some item ∧ (item.score = 60 ∨ item.score = 100) := by
  by_cases hb : jsToLower (rawBareName it.2) = []
  · refine ⟨emptyQueryItem it 100, ?_, Or.inr rfl⟩
    simp [searchItemEntry, itemScore, hb, emptyQueryItem]
  · have hlower : ¬ jsToLower it.2 = [] := by
      intro h
      apply hb
      have h2 : it.2 = [] := List.map_eq_nil_iff.mp h
      rw [h2, rawBareName_nil]
      rfl
    have hstarts : jsStartsWith (jsToLower (rawBareName it.2)) [] = true :=
      List.isPrefixOf_nil_left
    refine ⟨emptyQueryItem it 60, ?_, Or.inl rfl⟩
    simp [searchItemEntry, itemScore, hb, hlower, hstarts, emptyQueryItem]

/-- C1 counterexample: the empty query does not score 0; a concrete item
scores 60 (prefix tier, since every string starts with the empty string)
and the primary pass returns it rather than an empty result. -/
theorem c1_counterexample :
    scoreMatch "Mutex".data [] = 60 ∧
    searchAllItemsOn [("struct".data, "sync::Mutex".data)] []
      = [{ type := "struct".data, name := "sync::Mutex".data, path := "sync::Mutex".data,
           modulePath := "sync".data, bareName := "Mutex".data, score := 60 }] := by decide

/-- C1 amended: the empty query matches EVERY item rather than none: each
item scores 60 (or 100 when its bare name is itself empty), no item is
excluded (the primary result has one hit per indexed item), and there is no
empty-query short-circuit in the code. -/
theorem c1_amended_empty_query :
    ∀ items : List (List Char × List Char),
      (searchAllItemsOn items []).length = items.length ∧
      ∀ h ∈ searchAllItemsOn items [], h.score = 60 ∨ h.score = 100 := by
  intro items
  constructor
  · rw [searchAllItemsOn]
    rw [(List.perm_insertionSort rScored _).length_eq]
    show (items.filterMap (searchItemEntry [])).length = items.length
    induction items with
    | nil => rfl
    | cons it t ih =>
      rw [List.filterMap_cons]
      obtain ⟨item, hsome, _⟩ := searchItemEntry_empty it
      rw [hsome]
      simp [ih]
  · intro h hmem
    rw [searchAllItemsOn, List.mem_insertionSort, List.mem_filterMap] at hmem
    obtain ⟨it, _, hsome⟩ := hmem
    obtain ⟨item, hsome2, hscore⟩ := searchItemEntry_empty it
    have hq : jsToLower ([] : List Char) = [] := rfl
    rw [hq, hsome2] at hsome
    obtain rfl := Option.some_inj.mp hsome
    exact hscore

/-- C1 amended witness: a two-item index searched with the empty query
keeps both items, and the concrete hit for sync::Mutex scores 60. -/
theorem c1_amended_empty_query_witness :
    (searchAllItemsOn [("struct".data, "sync::Mutex".data), ("fn".data, "spawn".data)] []).length
      = 2 ∧
    (({ type := "struct".data, name := "sync::Mutex".data, path := "sync::Mutex".data,
        modulePath := "sync".data, bareName := "Mutex".data,
        score := 60 } : ScoredItem).score = 60 ∨
     ({ type := "struct".data, name := "sync::Mutex".data, path := "sync::Mutex".data,
        modulePath := "sync".data, bareName := "Mutex".data,
        score := 60 } : ScoredItem).score = 100) :=
  ⟨(c1_amended_empty_query
      [("struct".data, "sync::Mutex".data), ("fn".data, "spawn".data)]).1,
   (c1_amended_empty_query [("struct".data, "sync::Mutex".data)]).2 _ (by decide)⟩

end Mcp

-- ─── Helper lemmas: find? and filter ────────────────────

namespace Mcp

/-- Searching for a conjunction of predicates is searching the
p-filtered list for q. -/
theorem find?_and_eq_find?_filter {α : Type} (p q : α → Bool) (l : List α) :
    l.find? (fun a => p a && q a) = (l.filter p).find? q := by
  induction l with
  | nil => rfl
  | cons a t ih =>
    simp only [List.find?_cons]
    cases hp : p a with
    | true =>
      rw [List.filter_cons_of_pos hp]
      simp only [List.find?_cons, hp, Bool.true_and]
      cases hq : q a with
      | true => simp only [hq]
      | false =>
        simp only [hq]
        exact ih
    | false =>
      rw [List.filter_cons_of_neg (by simp [hp])]
      simp only [hp, Bool.false_and]
      exact ih

/-- The first element satisfying p is the head of the p-filtered list. -/
theorem find?_eq_head?_filter {α : Type} (p : α → Bool) (l : List α) :
    l.find? p = (l.filter p).head? := by
  induction l with
  | nil => rfl
  | cons a t ih =>
    cases hp : p a with
    | true => rw [List.filter_cons_of_pos hp, List.find?_cons, hp]; rfl
    | false =>
      rw [List.filter_cons_of_neg (by simp [hp]), List.find?_cons, hp]
      exact ih

/-- C9 amended: module-path auto-discovery considers only hits whose bare
name equals the requested item name case-insensitively: any returned hit
has that exact bare name; resolution fails (returns none) exactly when no
hit has it, even when other hits (prefix or substring matches, possibly
with the requested kind) exist; and the result is the first exact-name hit
with matching kind, falling back to the first exact-name hit of any kind
(which, hits being ranked, is the top-ranked exact-name hit). -/
theorem c9_amended_auto_discovery :
    ∀ (hits : List ScoredItem) (n t : List Char),
      (∀ h, autoDiscover hits n t = some h → jsToLower h.bareName = jsToLower n) ∧
      (autoDiscover hits n t = none ↔ ∀ h ∈ hits, jsToLower h.bareName ≠ jsToLower n) ∧
      (autoDiscover hits n t =
        (((hits.filter (fun h => decide (jsToLower h.bareName = jsToLower n))).find?
            (fun h => decide (h.type = t))).or
          ((hits.filter (fun h => decide (jsToLower h.bareName = jsToLower n))).head?))) := by
  intro hits n t
  have hor : autoDiscover hits n t =
      (((hits.filter (fun h => decide (jsToLower h.bareName = jsToLower n))).find?
          (fun h => decide (h.type = t))).or
        ((hits.filter (fun h => decide (jsToLower h.bareName = jsToLower n))).head?)) := by
    rw [autoDiscover]
    rw [find?_and_eq_find?_filter (fun h => decide (jsToLower h.bareName = jsToLower n))
      (fun h => decide (h.type = t)) hits]
    cases hfind : (hits.filter (fun h => decide (jsToLower h.bareName = jsToLower n))).find?
        (fun h => decide (h.type = t)) with
    | some h' => rfl
    | none => exact find?_eq_head?_filter _ hits
  refine ⟨?_, ?_, hor⟩
  · intro h hh
    rw [hor] at hh
    cases hfind : (hits.filter (fun x => decide (jsToLower x.bareName = jsToLower n))).find?
        (fun x => decide (x.type = t)) with
    | some h' =>
      rw [hfind] at hh
      simp only [Option.or] at hh
      obtain rfl := Option.some_inj.mp hh
      have hmem := List.mem_of_find?_eq_some hfind
      have := List.of_mem_filter hmem
      simpa using this
    | none =>
      rw [hfind] at hh
      simp only [Option.or] at hh
      cases hlist : (hits.filter (fun x => decide (jsToLower x.bareName = jsToLower n))) with
      | nil => rw [hlist] at hh; simp at hh
      | cons b bs =>
        rw [hlist] at hh
        simp only [List.head?] at hh
        obtain rfl := Option.some_inj.mp hh
        have hmem : b ∈ hits.filter (fun x => decide (jsToLower x.bareName = jsToLower n)) := by
          rw [hlist]; exact List.mem_cons_self b bs
        have := List.of_mem_filter hmem
        simpa using this
  · rw [hor]
    constructor
    · intro hh h hmem heq
      cases hfilter : (hits.filter (fun x => decide (jsToLower x.bareName = jsToLower n))) with
      | nil =>
        have : h ∈ hits.filter (fun x => decide (jsToLower x.bareName = jsToLower n)) :=
          List.mem_filter.mpr ⟨hmem, by simpa using heq⟩
        rw [hfilter] at this
        simp at this
      | cons b bs =>
        rw [hfilter] at hh
        cases hfind : (b :: bs).find? (fun x => decide (x.type = t)) with
        | some h' => rw [hfind] at hh; simp [Option.or] at hh
        | none => rw [hfind] at hh; simp [Option.or, List.head?] at hh
    · intro hall
      have hfilter : (hits.filter (fun x => decide (jsToLower x.bareName = jsToLower n))) = [] := by
        rw [List.filter_eq_nil_iff]
        intro h hmem
        simpa using hall h hmem
      rw [hfilter]
      rfl


/-- C9 counterexample: with an index containing only sync::MutexGuard, the
query Mutex produces a non-empty ranked hit list whose top hit even has the
requested kind, yet auto-discovery returns none because no hit's bare name
equals the item name - the code never falls back to the top-scoring hit. -/
theorem c9_counterexample :
    searchAllItemsOn [("struct".data, "sync::MutexGuard".data)] "Mutex".data ≠ [] ∧
    (searchAllItemsOn [("struct".data, "sync::MutexGuard".data)] "Mutex".data).map (·.type)
      = ["struct".data] ∧
    autoDiscover (searchAllItemsOn [("struct".data, "sync::MutexGuard".data)] "Mutex".data)
      "Mutex".data "struct".data = none := by decide

/-- C9 amended witness: on a concrete ranked list holding one exact-name
hit, auto-discovery picks a hit with the exact bare name; on a list with no
exact-name hit it returns none, both via the amended theorem. -/
theorem c9_amended_auto_discovery_witness :
    jsToLower ("Mutex".data) = jsToLower ("Mutex".data) ∧
    autoDiscover [⟨"struct".data, "sync::MutexGuard".data, "sync::MutexGuard".data,
        "sync".data, "MutexGuard".data, 60⟩] "Mutex".data "struct".data = none :=
  ⟨(c9_amended_auto_discovery
      [⟨"struct".data, "sync::Mutex".data, "sync::Mutex".data, "sync".data, "Mutex".data, 100⟩]
      "Mutex".data "struct".data).1
      ⟨"struct".data, "sync::Mutex".data, "sync::Mutex".data, "sync".data, "Mutex".data, 100⟩
      (by decide),
   (c9_amended_auto_discovery
      [⟨"struct".data, "sync::MutexGuard".data, "sync::MutexGuard".data,
          "sync".data, "MutexGuard".data, 60⟩]
      "Mutex".data "struct".data).2.1.mpr (by decide)⟩

end Mcp

-- ─── Helper lemmas: fuzzy fallback ──────────────────────

namespace Mcp

instance : IsTotal (SearchHit × Nat) rDist := ⟨fun a b => Nat.le_total a.2 b.2⟩
instance : IsTrans (SearchHit × Nat) rDist := ⟨fun _ _ _ h1 h2 => Nat.le_trans h1 h2⟩

/-- The fuzzy fallback set is capped at 20 and ascending in distance. -/
theorem fuzzyList_sorted_capped (items : List (List Char × List Char × List Char))
    (query : List Char) :
    (fuzzyList items query).length ≤ 20 ∧ List.Pairwise rDist (fuzzyList items query) := by
  constructor
  · rw [fuzzyList, List.length_take]
    exact Nat.min_le_left _ _
  · rw [fuzzyList]
    exact (List.sorted_insertionSort rDist _).sublist (List.take_sublist _ _)

/-- Every member of the fuzzy fallback set comes from an indexed item,
carries score 10 and its Levenshtein distance, and that distance is within
the ceil(0.4 * maxLen) threshold. -/
theorem fuzzyList_mem (items : List (List Char × List Char × List Char))
    (query : List Char) (hd : SearchHit × Nat) (hmem : hd ∈ fuzzyList items query) :
    ∃ it ∈ items, hd.1.name = it.2.1 ∧
      hd.2 = levenshtein (jsToLower (rawBareName it.2.1)) (jsToLower query) ∧
      hd.2 ≤ fuzzyThreshold
        (max (jsToLower (rawBareName it.2.1)).length (jsToLower query).length) ∧
      hd.1.score = 10 := by
  rw [fuzzyList] at hmem
  have hmem2 := List.mem_of_mem_take hmem
  rw [List.mem_insertionSort, fuzzyCandidates, List.mem_filterMap] at hmem2
  obtain ⟨it, hit, hcand⟩ := hmem2
  rw [fuzzyCandidate] at hcand
  by_cases hle : levenshtein (jsToLower (rawBareName it.2.1)) (jsToLower query)
      ≤ fuzzyThreshold (max (jsToLower (rawBareName it.2.1)).length (jsToLower query).length)
  · rw [if_pos hle] at hcand
    obtain rfl := (Option.some_inj.mp hcand).symm
    exact ⟨it, hit, rfl, rfl, hle, rfl⟩
  · rw [if_neg hle] at hcand
    exact absurd hcand (by simp)

/-- Structure of the search_crate result: the fuzzy fallback contributes
exactly when the primary pass is empty and the item list is not. -/
theorem searchCrateHits_cases (items : List (List Char × List Char × List Char))
    (query : List Char) :
    (primaryHits items query ≠ [] →
      searchCrateHits items query = List.insertionSort rSearchHit (primaryHits items query)) ∧
    (searchCrateHits [] query = []) ∧
    (primaryHits items query = [] → items ≠ [] →
      searchCrateHits items query
        = List.insertionSort rSearchHit ((fuzzyList items query).map (·.1))) := by
  refine ⟨?_, ?_, ?_⟩
  · intro hne
    rw [searchCrateHits]
    rw [if_neg (by intro hc; exact hne hc.1)]
  · rw [searchCrateHits]
    rw [if_neg (by intro hc; exact hc.2 rfl)]
    rfl
  · intro hnil hne
    rw [searchCrateHits]
    rw [if_pos ⟨hnil, hne⟩, hnil, List.nil_append]


/-- C7: the fuzzy fallback runs exactly when the primary pass yields no
hits and the index is non-empty (a non-empty primary pass, or an empty
index, leaves the result purely primary/empty); an accepted fuzzy hit is an
indexed item whose lower-cased bare name is within Levenshtein distance
ceil(0.4 * max(len query, len bareName)) of the lower-cased query; the
fallback set is sorted by increasing distance and capped at 20 before
merging; and for an index holding only Mutex, the query Mutx has zero
primary matches and exactly one fuzzy match, at edit distance 1. -/
theorem c7_fuzzy_fallback :
    (∀ items query, primaryHits items query ≠ [] →
       searchCrateHits items query = List.insertionSort rSearchHit (primaryHits items query)) ∧
    (∀ query, searchCrateHits [] query = []) ∧
    (∀ items query, primaryHits items query = [] → items ≠ [] →
       searchCrateHits items query
         = List.insertionSort rSearchHit ((fuzzyList items query).map (·.1))) ∧
    (∀ items query, (fuzzyList items query).length ≤ 20 ∧
       List.Pairwise rDist (fuzzyList items query)) ∧
    (∀ items query hd, hd ∈ fuzzyList items query →
       ∃ it ∈ items, hd.1.name = it.2.1 ∧
         hd.2 = levenshtein (jsToLower (rawBareName it.2.1)) (jsToLower query) ∧
         hd.2 ≤ fuzzyThreshold
           (max (jsToLower (rawBareName it.2.1)).length (jsToLower query).length) ∧
         hd.1.score = 10) ∧
    (primaryHits [("struct".data, "Mutex".data, "all/Mutex.html".data)] "Mutx".data = [] ∧
     levenshtein "mutex".data "mutx".data = 1 ∧
     fuzzyList [("struct".data, "Mutex".data, "all/Mutex.html".data)] "Mutx".data
       = [(⟨"struct".data, "Mutex".data, "all/Mutex.html".data, 10⟩, 1)] ∧
     searchCrateHits [("struct".data, "Mutex".data, "all/Mutex.html".data)] "Mutx".data
       = [⟨"struct".data, "Mutex".data, "all/Mutex.html".data, 10⟩]) :=
  ⟨fun items query => (searchCrateHits_cases items query).1,
   fun query => (searchCrateHits_cases [] query).2.1,
   fun items query => (searchCrateHits_cases items query).2.2,
   fuzzyList_sorted_capped,
   fuzzyList_mem,
   by decide⟩

/-- C7 witness: with a primary hit present the fuzzy fallback contributes
nothing, and the single fuzzy hit of the Mutx scenario is an accepted item
at distance 1 within the threshold. -/
theorem c7_fuzzy_fallback_witness :
    searchCrateHits [("struct".data, "Mutex".data, "h".data)] "Mutex".data
      = List.insertionSort rSearchHit
          (primaryHits [("struct".data, "Mutex".data, "h".data)] "Mutex".data) ∧
    (∃ it ∈ [("struct".data, "Mutex".data, "all/Mutex.html".data)],
       ((⟨"struct".data, "Mutex".data, "all/Mutex.html".data, 10⟩, 1) :
           SearchHit × Nat).1.name = it.2.1 ∧
       ((⟨"struct".data, "Mutex".data, "all/Mutex.html".data, 10⟩, 1) :
           SearchHit × Nat).2
         = levenshtein (jsToLower (rawBareName it.2.1)) (jsToLower "Mutx".data) ∧
       ((⟨"struct".data, "Mutex".data, "all/Mutex.html".data, 10⟩, 1) :
           SearchHit × Nat).2
         ≤ fuzzyThreshold
           (max (jsToLower (rawBareName it.2.1)).length (jsToLower "Mutx".data).length) ∧
       ((⟨"struct".data, "Mutex".data, "all/Mutex.html".data, 10⟩, 1) :
           SearchHit × Nat).1.score = 10) :=
  ⟨c7_fuzzy_fallback.1 [("struct".data, "Mutex".data, "h".data)] "Mutex".data (by decide),
   c7_fuzzy_fallback.2.2.2.2.1 [("struct".data, "Mutex".data, "all/Mutex.html".data)]
     "Mutx".data (⟨"struct".data, "Mutex".data, "all/Mutex.html".data, 10⟩, 1) (by decide)⟩

end Mcp

-- ─── Helper lemmas: lower-casing and the bare name ──────

namespace Mcp

/-- Char.ofNat round-trips on valid code points. -/
theorem toNat_ofNat_valid (n : Nat) (h : n.isValidChar) : (Char.ofNat n).toNat = n := by
  simp [Char.ofNat, h, Char.ofNatAux, Char.toNat, UInt32.toNat, UInt32.ofNatCore]

/-- Lower-casing hits the colon only at the colon itself. -/
theorem jsCharToLower_colon (c : Char) : jsCharToLower c = ':' ↔ c = ':' := by
  unfold jsCharToLower
  by_cases h : 65 ≤ c.toNat ∧ c.toNat ≤ 90
  · rw [if_pos h]
    constructor
    · intro he
      exfalso
      have hv : (c.toNat + 32).isValidChar := Or.inl (by omega)
      have ht : (Char.ofNat (c.toNat + 32)).toNat = c.toNat + 32 := toNat_ofNat_valid _ hv
      rw [he] at ht
      have h58 : (':' : Char).toNat = 58 := by decide
      rw [h58] at ht
      omega
    · intro he
      exfalso
      rw [he] at h
      exact absurd h (by decide)
  · rw [if_neg h]

/-- Comparing against the colon is unchanged by lower-casing. -/
theorem beq_colon_lower (c : Char) : (':' == jsCharToLower c) = (':' == c) := by
  by_cases h : c = ':'
  · rw [h]
    decide
  · have h2 : jsCharToLower c ≠ ':' := fun he => h ((jsCharToLower_colon c).mp he)
    have e1 : (':' == jsCharToLower c) = false := beq_eq_false_iff_ne.mpr (fun he => h2 he.symm)
    have e2 : (':' == c) = false := beq_eq_false_iff_ne.mpr (fun he => h he.symm)
    rw [e1, e2]

/-- The double-colon prefix test is unchanged by lower-casing. -/
theorem dcPrefix_map (s : List Char) :
    [':', ':'].isPrefixOf (jsToLower s) = [':', ':'].isPrefixOf s := by
  cases s with
  | nil => rfl
  | cons c t =>
    cases t with
    | nil => simp [jsToLower, List.isPrefixOf]
    | cons c2 t2 => simp [jsToLower, List.isPrefixOf, beq_colon_lower]

/-- The double-colon containment test is unchanged by lower-casing. -/
theorem jsIncludes_dc_map (s : List Char) :
    jsIncludes (jsToLower s) [':', ':'] = jsIncludes s [':', ':'] := by
  induction s with
  | nil => rfl
  | cons c t ih =>
    show ([':', ':'].isPrefixOf (jsToLower (c :: t)) || jsIncludes (jsToLower t) [':', ':'])
        = ([':', ':'].isPrefixOf (c :: t) || jsIncludes t [':', ':'])
    rw [dcPrefix_map, ih]

/-- Splitting never yields the empty segment list. -/
theorem splitDC_ne_nil (s : List Char) : splitDC s ≠ [] := by
  induction s using splitDC.induct with
  | case1 => simp [splitDC]
  | case2 c => simp [splitDC]
  | case3 c1 c2 rest h ih =>
    obtain ⟨rfl, rfl⟩ := h
    simp [splitDC]
  | case4 c1 c2 rest h hsplit ih => simp [splitDC, h, hsplit]
  | case5 c1 c2 rest h s0 ss hsplit ih => simp [splitDC, h, hsplit]

/-- Splitting on the double colon commutes with lower-casing, because no
uppercase letter lower-cases to a colon. -/
theorem splitDC_map (s : List Char) :
    splitDC (jsToLower s) = (splitDC s).map jsToLower := by
  induction s using splitDC.induct with
  | case1 => rfl
  | case2 c => rfl
  | case3 c1 c2 rest h ih =>
    obtain ⟨rfl, rfl⟩ := h
    have hcolon : jsCharToLower ':' = ':' := by decide
    show splitDC (jsCharToLower ':' :: jsCharToLower ':' :: jsToLower rest)
        = (splitDC (':' :: ':' :: rest)).map jsToLower
    rw [hcolon]
    rw [show splitDC (':' :: ':' :: jsToLower rest) = [] :: splitDC (jsToLower rest) from by
      simp [splitDC]]
    rw [show splitDC (':' :: ':' :: rest) = [] :: splitDC rest from by simp [splitDC]]
    rw [List.map_cons, ih]
    rfl
  | case4 c1 c2 rest h hsplit ih => exact absurd hsplit (splitDC_ne_nil _)
  | case5 c1 c2 rest h s0 ss hsplit ih =>
    have hneg : ¬(jsCharToLower c1 = ':' ∧ jsCharToLower c2 = ':') := by
      intro hc
      exact h ⟨(jsCharToLower_colon c1).mp hc.1, (jsCharToLower_colon c2).mp hc.2⟩
    have lhs1 : splitDC (jsToLower (c1 :: c2 :: rest))
        = match splitDC (jsCharToLower c2 :: jsToLower rest) with
          | [] => [[jsCharToLower c1]]
          | s1 :: ss1 => (jsCharToLower c1 :: s1) :: ss1 := by
      show splitDC (jsCharToLower c1 :: jsCharToLower c2 :: jsToLower rest) = _
      rw [splitDC]
      rw [if_neg hneg]
      try rfl
    have ihx : splitDC (jsCharToLower c2 :: jsToLower rest)
        = jsToLower s0 :: ss.map jsToLower := by
      show splitDC (jsToLower (c2 :: rest)) = _
      rw [ih, hsplit, List.map_cons]
    rw [lhs1, ihx]
    have rhs1 : splitDC (c1 :: c2 :: rest) = (c1 :: s0) :: ss := by
      rw [splitDC, if_neg h, hsplit]
    rw [rhs1, List.map_cons]
    rfl

/-- The bare name of the lowered path is the lowered bare name: the bridge
between scoreMatch (which lowers first) and searchAllItems and the fuzzy
fallback (which take the bare name first). -/
theorem rawBareName_map (s : List Char) :
    rawBareName (jsToLower s) = jsToLower (rawBareName s) := by
  rw [rawBareName, rawBareName, jsIncludes_dc_map]
  by_cases h : jsIncludes s [':', ':'] = true
  · rw [if_pos h, if_pos h, splitDC_map]
    exact List.getLastD_map jsToLower (splitDC s) s
  · rw [if_neg h, if_neg h]

end Mcp

-- ─── Helper lemmas: ranking ─────────────────────────────

namespace Mcp

/-- scoreMatch in spec form: the bare name may be taken before lowering. -/
theorem scoreMatch_eq_itemScore (name q : List Char) :
    scoreMatch name q
      = itemScore (jsToLower q) (jsToLower name) (jsToLower (rawBareName name)) := by
  show itemScore (jsToLower q) (jsToLower name) (rawBareName (jsToLower name)) = _
  rw [rawBareName_map]

instance : IsTotal ScoredItem rScored := by
  constructor
  intro a b
  rw [rScored, rScored]
  rcases Nat.lt_trichotomy a.score b.score with h | h | h
  · exact Or.inr (Or.inl h)
  · rcases le_total a.name b.name with hn | hn
    · exact Or.inl (Or.inr ⟨h, hn⟩)
    · exact Or.inr (Or.inr ⟨h.symm, hn⟩)
  · exact Or.inl (Or.inl h)

instance : IsTrans ScoredItem rScored := by
  constructor
  intro a b c hab hbc
  rw [rScored] at hab hbc ⊢
  rcases hab with h1 | ⟨h1, hn1⟩
  · rcases hbc with h2 | ⟨h2, hn2⟩
    · exact Or.inl (by omega)
    · exact Or.inl (by omega)
  · rcases hbc with h2 | ⟨h2, hn2⟩
    · exact Or.inl (by omega)
    · exact Or.inr ⟨by omega, le_trans hn1 hn2⟩

/-- Every primary hit has a positive score, and that score is exactly what
scoreMatch assigns its name. -/
theorem searchAllItemsOn_mem_score (items : List (List Char × List Char))
    (q : List Char) (h : ScoredItem) (hmem : h ∈ searchAllItemsOn items q) :
    0 < h.score ∧ h.score = scoreMatch h.name q := by
  rw [searchAllItemsOn, List.mem_insertionSort, List.mem_filterMap] at hmem
  obtain ⟨it, hit, hsome⟩ := hmem
  simp only [searchItemEntry] at hsome
  by_cases hpos : 0 < itemScore (jsToLower q) (jsToLower it.2) (jsToLower (rawBareName it.2))
  · rw [if_pos hpos] at hsome
    obtain rfl := (Option.some_inj.mp hsome).symm
    refine ⟨hpos, ?_⟩
    show _ = scoreMatch it.2 q
    rw [scoreMatch_eq_itemScore]
  · rw [if_neg hpos] at hsome
    exact absurd hsome (by simp)

/-- The searchAllItems output is sorted score-descending, name-ascending. -/
theorem searchAllItemsOn_sorted (items : List (List Char × List Char)) (q : List Char) :
    List.Sorted rScored (searchAllItemsOn items q) := by
  rw [searchAllItemsOn]
  exact List.sorted_insertionSort rScored _


/-- C6: against any query, compared case-insensitively, an item scores 100
when its bare name (final :: segment) equals the query, else 95 when its
full path equals the query, else 60 when the bare name starts with the
query, else 55 when the full path starts with the query, else 20 when the
full path contains the query, else 0; zero-scoring items are excluded from
the primary results, which are sorted by score descending with name
ascending as tie-break; in particular sync::Mutex (exact bare name) ranks
above sync::MutexGuard (bare-name prefix) which ranks above a
substring-only match. -/
theorem c6_score_ranking :
    (∀ name q : List Char,
       (jsToLower (rawBareName name) = jsToLower q → scoreMatch name q = 100) ∧
       (jsToLower (rawBareName name) ≠ jsToLower q → jsToLower name = jsToLower q →
          scoreMatch name q = 95) ∧
       (jsToLower (rawBareName name) ≠ jsToLower q → jsToLower name ≠ jsToLower q →
          jsStartsWith (jsToLower (rawBareName name)) (jsToLower q) = true →
          scoreMatch name q = 60) ∧
       (jsToLower (rawBareName name) ≠ jsToLower q → jsToLower name ≠ jsToLower q →
          jsStartsWith (jsToLower (rawBareName name)) (jsToLower q) = false →
          jsStartsWith (jsToLower name) (jsToLower q) = true →
          scoreMatch name q = 55) ∧
       (jsToLower (rawBareName name) ≠ jsToLower q → jsToLower name ≠ jsToLower q →
          jsStartsWith (jsToLower (rawBareName name)) (jsToLower q) = false →
          jsStartsWith (jsToLower name) (jsToLower q) = false →
          jsIncludes (jsToLower name) (jsToLower q) = true →
          scoreMatch name q = 20) ∧
       (jsToLower (rawBareName name) ≠ jsToLower q → jsToLower name ≠ jsToLower q →
          jsStartsWith (jsToLower (rawBareName name)) (jsToLower q) = false →
          jsStartsWith (jsToLower name) (jsToLower q) = false →
          jsIncludes (jsToLower name) (jsToLower q) = false →
          scoreMatch name q = 0)) ∧
    (∀ (items : List (List Char × List Char)) (q : List Char) (h : ScoredItem),
       h ∈ searchAllItemsOn items q → 0 < h.score ∧ h.score = scoreMatch h.name q) ∧
    (∀ (items : List (List Char × List Char)) (q : List Char),
       List.Sorted rScored (searchAllItemsOn items q)) ∧
    ((searchAllItemsOn
        [("struct".data, "sync::MutexGuard".data),
         ("struct".data, "sync::PoisonMutexError".data),
         ("struct".data, "sync::Mutex".data)] "Mutex".data).map
       (fun h => (h.name, h.score))
     = [("sync::Mutex".data, 100), ("sync::MutexGuard".data, 60),
        ("sync::PoisonMutexError".data, 20)]) := by
  refine ⟨?_, searchAllItemsOn_mem_score, searchAllItemsOn_sorted, by decide⟩
  intro name q
  refine ⟨?_, ?_, ?_, ?_, ?_, ?_⟩
  · intro h1
    rw [scoreMatch_eq_itemScore, itemScore, if_pos h1]
  · intro h1 h2
    rw [scoreMatch_eq_itemScore, itemScore, if_neg h1, if_pos h2]
  · intro h1 h2 h3
    rw [scoreMatch_eq_itemScore, itemScore, if_neg h1, if_neg h2, if_pos h3]
  · intro h1 h2 h3 h4
    rw [scoreMatch_eq_itemScore, itemScore, if_neg h1, if_neg h2,
      if_neg (by rw [h3]; exact Bool.false_ne_true), if_pos h4]
  · intro h1 h2 h3 h4 h5
    rw [scoreMatch_eq_itemScore, itemScore, if_neg h1, if_neg h2,
      if_neg (by rw [h3]; exact Bool.false_ne_true),
      if_neg (by rw [h4]; exact Bool.false_ne_true), if_pos h5]
  · intro h1 h2 h3 h4 h5
    rw [scoreMatch_eq_itemScore, itemScore, if_neg h1, if_neg h2,
      if_neg (by rw [h3]; exact Bool.false_ne_true),
      if_neg (by rw [h4]; exact Bool.false_ne_true),
      if_neg (by rw [h5]; exact Bool.false_ne_true)]

/-- The concrete exact-match hit used by the C6 witness. -/
def mutexHit : ScoredItem :=
  { type := "struct".data, name := "sync::Mutex".data, path := "sync::Mutex".data,
    modulePath := "sync".data, bareName := "Mutex".data, score := 100 }

/-- C6 witness: the tier implications instantiated on the Mutex scenario
names, plus the membership fact for the top concrete hit. -/
theorem c6_score_ranking_witness :
    scoreMatch "sync::Mutex".data "Mutex".data = 100 ∧
    scoreMatch "sync::MutexGuard".data "Mutex".data = 60 ∧
    scoreMatch "sync::PoisonMutexError".data "Mutex".data = 20 ∧
    (0 < mutexHit.score ∧ mutexHit.score = scoreMatch mutexHit.name "Mutex".data) :=
  ⟨(c6_score_ranking.1 "sync::Mutex".data "Mutex".data).1 (by decide),
   (c6_score_ranking.1 "sync::MutexGuard".data "Mutex".data).2.2.1
     (by decide) (by decide) (by decide),
   (c6_score_ranking.1 "sync::PoisonMutexError".data "Mutex".data).2.2.2.2.1
     (by decide) (by decide) (by decide) (by decide) (by decide),
   c6_score_ranking.2.1 [("struct".data, "sync::Mutex".data)] "Mutex".data _ (by decide)⟩

end Mcp

-- ─── Helper lemmas: LRU eviction ────────────────────────

namespace Mcp


/-- The key list of a store, in iteration order. -/
def storeKeys {T : Type} (s : Store T) : List String := s.map Prod.fst

/-- Representation invariant of the JS Map: keys are unique (a Map holds
at most one entry per key) and, for the eviction guard, no key is the
empty string (every key in the repository carries a prefix such as dom:
or crate-info:). -/
def KeysOk {T : Type} (s : Store T) : Prop :=
  (storeKeys s).Nodup ∧ "" ∉ storeKeys s

instance {T : Type} (s : Store T) : Decidable (KeysOk s) := by
  unfold KeysOk
  infer_instance

/-- Characterization of the evictLru scan: it returns the running
candidate when nothing beats it strictly, or the first entry achieving the
minimum lastAccess, with everything before it strictly larger and
everything after it at least as large. -/
theorem lruGo_char {T : Type} (s : Store T) : ∀ (q : String × Nat),
    (lruGo q s = q ∧ ∀ p ∈ s, q.2 ≤ p.2.lastAccess) ∨
    (∃ pre e suf, s = pre ++ e :: suf ∧ lruGo q s = (e.1, e.2.lastAccess) ∧
      e.2.lastAccess < q.2 ∧ (∀ p ∈ pre, e.2.lastAccess < p.2.lastAccess) ∧
      (∀ p ∈ suf, e.2.lastAccess ≤ p.2.lastAccess)) := by
  induction s with
  | nil =>
    intro q
    exact Or.inl ⟨rfl, by simp⟩
  | cons p rest ih =>
    intro q
    rw [lruGo]
    by_cases hlt : p.2.lastAccess < q.2
    · rw [if_pos hlt]
      rcases ih (p.1, p.2.lastAccess) with ⟨heq, hall⟩ |
        ⟨pre, e, suf, hsplit, heq, hlt2, hpre, hsuf⟩
      · exact Or.inr ⟨[], p, rest, rfl, heq, hlt, by simp, hall⟩
      · refine Or.inr ⟨p :: pre, e, suf, by rw [hsplit]; rfl, heq, ?_, ?_, hsuf⟩
        · simp only at hlt2
          omega
        · intro r hr
          rcases List.mem_cons.mp hr with rfl | hr2
          · simp only at hlt2
            exact hlt2
          · exact hpre r hr2
    · rw [if_neg hlt]
      rcases ih q with ⟨heq, hall⟩ | ⟨pre, e, suf, hsplit, heq, hlt2, hpre, hsuf⟩
      · refine Or.inl ⟨heq, ?_⟩
        intro r hr
        rcases List.mem_cons.mp hr with rfl | hr2
        · omega
        · exact hall r hr2
      · refine Or.inr ⟨p :: pre, e, suf, by rw [hsplit]; rfl, heq, hlt2, ?_, hsuf⟩
        intro r hr
        rcases List.mem_cons.mp hr with rfl | hr2
        · omega
        · exact hpre r hr2

/-- On a non-empty store the scan picks exactly the first-encountered
entry with minimal lastAccess. -/
theorem lruFold_first_min {T : Type} (s : Store T) (hne : s ≠ []) :
    ∃ pre e suf, s = pre ++ e :: suf ∧ lruFold s = some (e.1, e.2.lastAccess) ∧
      (∀ p ∈ pre, e.2.lastAccess < p.2.lastAccess) ∧
      (∀ p ∈ suf, e.2.lastAccess ≤ p.2.lastAccess) := by
  cases s with
  | nil => exact absurd rfl hne
  | cons p rest =>
    rw [lruFold]
    rcases lruGo_char rest (p.1, p.2.lastAccess) with ⟨heq, hall⟩ |
      ⟨pre, e, suf, hsplit, heq, hlt, hpre, hsuf⟩
    · exact ⟨[], p, rest, rfl, by rw [heq], by simp, hall⟩
    · refine ⟨p :: pre, e, suf, by rw [hsplit]; rfl, by rw [heq], ?_, hsuf⟩
      intro r hr
      rcases List.mem_cons.mp hr with rfl | hr2
      · simp only at hlt
        exact hlt
      · exact hpre r hr2

/-- Deleting the key of the distinguished entry of a unique-key store
removes exactly that entry. -/
theorem storeDelete_split {T : Type} (pre suf : Store T) (e : String × CacheEntry T)
    (hnodup : (storeKeys (pre ++ e :: suf)).Nodup) :
    storeDelete (pre ++ e :: suf) e.1 = pre ++ suf := by
  have hmid : e.1 ∉ storeKeys pre ++ storeKeys suf := by
    have h2 : (storeKeys pre ++ e.1 :: storeKeys suf).Nodup := by
      rw [storeKeys, List.map_append, List.map_cons] at hnodup
      exact hnodup
    have h3 := List.nodup_middle.mp h2
    exact (List.nodup_cons.mp h3).1
  rw [storeDelete, List.filter_append, List.filter_cons]
  have he : (decide (e.1 ≠ e.1)) = false := by simp
  rw [he]
  have hpre : pre.filter (fun p => decide (p.1 ≠ e.1)) = pre := by
    rw [List.filter_eq_self]
    intro p hp
    simp only [decide_eq_true_eq]
    intro hk
    apply hmid
    apply List.mem_append.mpr
    apply Or.inl
    rw [storeKeys, ← hk]
    exact List.mem_map_of_mem Prod.fst hp
  have hsuf : suf.filter (fun p => decide (p.1 ≠ e.1)) = suf := by
    rw [List.filter_eq_self]
    intro p hp
    simp only [decide_eq_true_eq]
    intro hk
    apply hmid
    apply List.mem_append.mpr
    apply Or.inr
    rw [storeKeys, ← hk]
    exact List.mem_map_of_mem Prod.fst hp
  rw [hpre, hsuf]
  simp

/-- evictLru removes exactly the first-encountered least-recently-accessed
entry of a well-formed non-empty store. -/
theorem evictLru_spec {T : Type} (s : Store T) (hk : KeysOk s) (hne : s ≠ []) :
    ∃ pre e suf, s = pre ++ e :: suf ∧ evictLru s = pre ++ suf ∧
      (∀ p ∈ pre, e.2.lastAccess < p.2.lastAccess) ∧
      (∀ p ∈ suf, e.2.lastAccess ≤ p.2.lastAccess) := by
  obtain ⟨pre, e, suf, hsplit, hfold, hpre, hsuf⟩ := lruFold_first_min s hne
  have hkey : e.1 ≠ "" := by
    intro h0
    apply hk.2
    rw [hsplit, storeKeys, List.map_append, List.map_cons, ← h0]
    exact List.mem_append.mpr (Or.inr (List.mem_cons_self _ _))
  refine ⟨pre, e, suf, hsplit, ?_, hpre, hsuf⟩
  simp only [evictLru, hfold]
  rw [if_neg hkey, hsplit]
  exact storeDelete_split pre suf e (by rw [← hsplit]; exact hk.1)

/-- evictLru removes exactly one entry. -/
theorem evictLru_length {T : Type} (s : Store T) (hk : KeysOk s) (hne : s ≠ []) :
    (evictLru s).length + 1 = s.length := by
  obtain ⟨pre, e, suf, hsplit, heq, _, _⟩ := evictLru_spec s hk hne
  rw [heq, hsplit]
  simp
  omega




/-- Map.set grows the store by at most one entry. -/
theorem storeSet_length_le {T : Type} (s : Store T) (k : String) (e : CacheEntry T) :
    (storeSet s k e).length ≤ s.length + 1 := by
  rw [storeSet]
  by_cases h : (s.find? (fun p => decide (p.1 = k))).isSome
  · rw [if_pos h, List.length_map]
    omega
  · rw [if_neg h, List.length_append]
    simp

/-- Map.set with a fresh key appends. -/
theorem storeSet_of_not_mem {T : Type} (s : Store T) (k : String) (e : CacheEntry T)
    (h : k ∉ storeKeys s) :
    storeSet s k e = s ++ [(k, e)] := by
  have hfind : s.find? (fun p => decide (p.1 = k)) = none := by
    rw [List.find?_eq_none]
    intro p hp
    simp only [decide_eq_true_eq]
    intro hk
    apply h
    rw [storeKeys, ← hk]
    exact List.mem_map_of_mem Prod.fst hp
  rw [storeSet, hfind]
  rfl

/-- Map.set on a present key replaces in place. -/
theorem storeSet_length_of_isSome {T : Type} (s : Store T) (k : String) (e : CacheEntry T)
    (h : (s.find? (fun p => decide (p.1 = k))).isSome) :
    (storeSet s k e).length = s.length := by
  rw [storeSet, if_pos h, List.length_map]

/-- cacheGet never grows the store. -/
theorem cacheGet_length_le {T : Type} (s : Store T) (k : String) (now : Nat) :
    ((cacheGet s k now).2).length ≤ s.length := by
  cases h : storeGet s k with
  | none => simp [cacheGet, h]
  | some e =>
    simp only [cacheGet, h]
    by_cases hgt : now > e.staleExpiry
    · rw [if_pos hgt]
      exact (List.filter_sublist s).length_le
    · rw [if_neg hgt]
      have hsome : (s.find? (fun p => decide (p.1 = k))).isSome := by
        rw [storeGet] at h
        cases hf : s.find? (fun p => decide (p.1 = k)) with
        | none => rw [hf] at h; exact absurd h (by simp)
        | some p => rfl
      rw [storeSet_length_of_isSome s k _ hsome]

/-- Appending a fresh non-empty key preserves the Map invariant. -/
theorem keysOk_append_fresh {T : Type} (s : Store T) (k : String) (e : CacheEntry T)
    (hk : KeysOk s) (hmem : k ∉ storeKeys s) (hne : k ≠ "") :
    KeysOk (s ++ [(k, e)]) := by
  have hkeys : storeKeys (s ++ [(k, e)]) = storeKeys s ++ [k] := by
    rw [storeKeys, List.map_append]
    rfl
  constructor
  · rw [hkeys, List.nodup_append]
    refine ⟨hk.1, List.nodup_singleton k, ?_⟩
    intro a ha hb
    rw [List.mem_singleton] at hb
    exact hmem (hb ▸ ha)
  · rw [hkeys]
    intro hin
    rcases List.mem_append.mp hin with h1 | h2
    · exact hk.2 h1
    · rw [List.mem_singleton] at h2
      exact hne h2.symm

/-- The eviction loop does not run below capacity. -/
theorem evictWhileFuel_stop {T : Type} (m : Nat) (fuel : Nat) (s : Store T)
    (h : s.length < m) : evictWhileFuel m fuel s = s := by
  cases fuel with
  | zero => rfl
  | succ f =>
    rw [evictWhileFuel, if_neg (by omega)]

/-- Below capacity the eviction loop leaves the store unchanged. -/
theorem evictWhile_lt {T : Type} (m : Nat) (s : Store T) (h : s.length < m) :
    evictWhile m s = s :=
  evictWhileFuel_stop m (s.length + 1) s h

/-- At exactly the capacity the loop evicts exactly once. -/
theorem evictWhile_at_cap {T : Type} (m : Nat) (s : Store T) (hk : KeysOk s)
    (hlen : s.length = m) (hm : 1 ≤ m) :
    evictWhile m s = evictLru s ∧ (evictWhile m s).length + 1 = s.length := by
  have hne : s ≠ [] := by
    intro h0
    rw [h0] at hlen
    simp at hlen
    omega
  have hlen2 := evictLru_length s hk hne
  have hcase : evictWhile m s = evictLru s := by
    rw [evictWhile, evictWhileFuel, if_pos (by omega)]
    simp only
    rw [if_pos (by omega)]
    exact evictWhileFuel_stop m s.length (evictLru s) (by omega)
  exact ⟨hcase, by rw [hcase]; omega⟩

/-- cacheSetWith preserves the capacity bound on well-formed stores. -/
theorem cacheSetWith_bound {T : Type} (m : Nat) (s : Store T) (k : String) (v : T)
    (now ttl : Nat) (hm : 1 ≤ m) (hk : KeysOk s) (hlen : s.length ≤ m) :
    (cacheSetWith m s k v now ttl).length ≤ m := by
  rw [cacheSetWith]
  by_cases hlt : s.length < m
  · rw [evictWhile_lt m s hlt]
    have := storeSet_length_le s k (⟨v, now + ttl, now + STALE_GRACE, now⟩ : CacheEntry T)
    omega
  · have hcap : s.length = m := by omega
    obtain ⟨heq, hlen2⟩ := evictWhile_at_cap m s hk hcap hm
    have := storeSet_length_le (evictWhile m s) k
      (⟨v, now + ttl, now + STALE_GRACE, now⟩ : CacheEntry T)
    omega

/-- Below capacity, setting a fresh key is a plain append of the new
entry. -/
theorem cacheSetWith_fresh {T : Type} (m : Nat) (s : Store T) (k : String) (v : T)
    (now ttl : Nat) (hlt : s.length < m) (hmem : k ∉ storeKeys s) :
    cacheSetWith m s k v now ttl = s ++ [(k, ⟨v, now + ttl, now + STALE_GRACE, now⟩)] := by
  rw [cacheSetWith, evictWhile_lt m s hlt]
  exact storeSet_of_not_mem s k _ hmem




/-- Folding cacheSetWith over a list of keys (all with one value and
time), as in the spec scenario of inserting maxEntries + 1 distinct
keys. -/
def insertKeys {T : Type} (m : Nat) (v : T) (ks : List String) (s : Store T) : Store T :=
  ks.foldl (fun acc k => cacheSetWith m acc k v 0 0) s

/-- While capacity is not exceeded, inserting fresh distinct keys just
appends them: sizes add up and the invariant is kept. -/
theorem insertKeys_below {T : Type} (m : Nat) (v : T) :
    ∀ (ks : List String) (s : Store T),
      KeysOk s → (∀ k ∈ ks, k ∉ storeKeys s ∧ k ≠ "") → ks.Nodup →
      s.length + ks.length ≤ m →
      (insertKeys m v ks s).length = s.length + ks.length ∧
      KeysOk (insertKeys m v ks s) ∧
      storeKeys (insertKeys m v ks s) = storeKeys s ++ ks := by
  intro ks
  induction ks with
  | nil =>
    intro s h1 _ _ _
    exact ⟨by simp [insertKeys], h1, by simp [insertKeys]⟩
  | cons k kt ih =>
    intro s hk hfresh hnodup hlen
    have hmem := (hfresh k (List.mem_cons_self k kt)).1
    have hne := (hfresh k (List.mem_cons_self k kt)).2
    have hlt : s.length < m := by
      rw [List.length_cons] at hlen
      omega
    have hstep : cacheSetWith m s k v 0 0
        = s ++ [(k, ⟨v, 0 + 0, 0 + STALE_GRACE, 0⟩)] :=
      cacheSetWith_fresh m s k v 0 0 hlt hmem
    have hkeys1 : storeKeys (s ++ [(k, (⟨v, 0 + 0, 0 + STALE_GRACE, 0⟩ : CacheEntry T))])
        = storeKeys s ++ [k] := by
      rw [storeKeys, List.map_append]
      rfl
    have hrec := ih (s ++ [(k, ⟨v, 0 + 0, 0 + STALE_GRACE, 0⟩)])
      (keysOk_append_fresh s k _ hk hmem hne)
      (by
        intro k2 hk2
        constructor
        · rw [hkeys1]
          intro hin
          rcases List.mem_append.mp hin with h1 | h2
          · exact (hfresh k2 (List.mem_cons_of_mem k hk2)).1 h1
          · rw [List.mem_singleton] at h2
            exact (List.nodup_cons.mp hnodup).1 (h2 ▸ hk2)
        · exact (hfresh k2 (List.mem_cons_of_mem k hk2)).2)
      (List.nodup_cons.mp hnodup).2
      (by
        rw [List.length_append]
        rw [List.length_cons] at hlen
        simp only [List.length_cons, List.length_nil]
        omega)
    have hfold : insertKeys m v (k :: kt) s
        = insertKeys m v kt (s ++ [(k, ⟨v, 0 + 0, 0 + STALE_GRACE, 0⟩)]) := by
      rw [insertKeys, List.foldl_cons, hstep]
      rfl
    rw [hfold]
    refine ⟨?_, hrec.2.1, ?_⟩
    · rw [hrec.1]
      simp only [List.length_append, List.length_cons, List.length_nil]
      omega
    · rw [hrec.2.2, hkeys1, List.append_assoc]
      rfl

/-- Inserting m + 1 distinct non-empty keys into the empty cache of
capacity m leaves exactly m entries: the final insert evicts exactly
one. -/
theorem insertKeys_full {T : Type} (m : Nat) (v : T) (ks : List String) (hm : 1 ≤ m)
    (hnodup : ks.Nodup) (hnil : "" ∉ ks) (hlen : ks.length = m + 1) :
    (insertKeys m v ks ([] : Store T)).length = m := by
  have hks_ne : ks ≠ [] := by
    intro h0
    rw [h0] at hlen
    simp at hlen
  have hsplit : ks.dropLast ++ [ks.getLast hks_ne] = ks := List.dropLast_append_getLast hks_ne
  have hinit_len : ks.dropLast.length = m := by
    have := List.length_dropLast ks
    omega
  have hinit_nodup : ks.dropLast.Nodup := by
    rw [← hsplit] at hnodup
    exact (List.nodup_append.mp hnodup).1
  have hlast_fresh : ks.getLast hks_ne ∉ ks.dropLast := by
    rw [← hsplit] at hnodup
    have hdisj := (List.nodup_append.mp hnodup).2.2
    intro hin
    exact hdisj hin (List.mem_singleton_self _)
  have hbelow := insertKeys_below m v ks.dropLast ([] : Store T)
    (by constructor <;> simp [storeKeys])
    (by
      intro k hk2
      refine ⟨by simp [storeKeys], ?_⟩
      intro h0
      apply hnil
      rw [← hsplit]
      exact List.mem_append.mpr (Or.inl (h0 ▸ hk2)))
    hinit_nodup
    (by simp [hinit_len])
  have h1 : (insertKeys m v ks.dropLast ([] : Store T)).length = m := by
    rw [hbelow.1]
    simpa using hinit_len
  have hk1 : KeysOk (insertKeys m v ks.dropLast ([] : Store T)) := hbelow.2.1
  have hkeys1 : storeKeys (insertKeys m v ks.dropLast ([] : Store T)) = ks.dropLast := by
    rw [hbelow.2.2]
    simp [storeKeys]
  set s1 := insertKeys m v ks.dropLast ([] : Store T) with hs1
  have hfold : insertKeys m v ks ([] : Store T) = cacheSetWith m s1 (ks.getLast hks_ne) v 0 0 := by
    conv_lhs => rw [← hsplit]
    rw [insertKeys, List.foldl_append]
    rfl
  rw [hfold]
  obtain ⟨hwhile, hwlen⟩ := evictWhile_at_cap m s1 hk1 h1 hm
  have hlast_fresh2 : ks.getLast hks_ne ∉ storeKeys (evictWhile m s1) := by
    rw [hwhile]
    intro hin
    apply hlast_fresh
    rw [← hkeys1]
    have hne1 : s1 ≠ [] := by
      intro h0
      rw [h0] at h1
      simp at h1
      omega
    obtain ⟨pre, e, suf, hsp, heq, _, _⟩ := evictLru_spec s1 hk1 hne1
    rw [heq] at hin
    rw [hsp, storeKeys, List.map_append, List.map_cons]
    rw [storeKeys, List.map_append] at hin
    rcases List.mem_append.mp hin with h1 | h2
    · exact List.mem_append.mpr (Or.inl h1)
    · exact List.mem_append.mpr (Or.inr (List.mem_cons_of_mem _ h2))
  rw [cacheSetWith, storeSet_of_not_mem _ _ _ hlast_fresh2, List.length_append]
  simp only [List.length_singleton]
  omega

/-- An entry strictly more recently accessed than some other entry is
never the one evicted. -/
theorem evictLru_survives {T : Type} (s : Store T) (hk : KeysOk s)
    (a b : String × CacheEntry T) (ha : a ∈ s) (hb : b ∈ s)
    (hlt : b.2.lastAccess < a.2.lastAccess) : a ∈ evictLru s := by
  have hne : s ≠ [] := by
    intro h0
    rw [h0] at ha
    simp at ha
  obtain ⟨pre, e, suf, hsplit, heq, hpre, hsuf⟩ := evictLru_spec s hk hne
  rw [heq]
  rw [hsplit] at ha hb
  rcases List.mem_append.mp ha with hpa | hca
  · exact List.mem_append.mpr (Or.inl hpa)
  rcases List.mem_cons.mp hca with rfl | hsa
  · exfalso
    rcases List.mem_append.mp hb with hpb | hcb
    · have := hpre b hpb
      omega
    rcases List.mem_cons.mp hcb with rfl | hsb
    · omega
    · have := hsuf b hsb
      omega
  · exact List.mem_append.mpr (Or.inr hsa)


/-- C4: every cache operation preserves the size bound: cacheSetWith keeps
size <= maxEntries on any well-formed store within the bound (for every
capacity, in particular the source's 500), and cacheGet never grows the
store; a set at exactly the capacity evicts exactly one entry, the
first-encountered entry with minimal lastAccess; inserting maxEntries + 1
distinct keys into the empty cache leaves exactly maxEntries entries; an
entry more recently accessed than some other entry (e.g. one touched by
cacheGet, which sets lastAccess to now) always survives the eviction; and
cacheSet is cacheSetWith at capacity 500. -/
theorem c4_lru_eviction :
    (∀ (T : Type) (m : Nat) (s : Store T) (k : String) (v : T) (now ttl : Nat),
       1 ≤ m → KeysOk s → s.length ≤ m → (cacheSetWith m s k v now ttl).length ≤ m) ∧
    (∀ (T : Type) (s : Store T) (k : String) (now : Nat),
       ((cacheGet s k now).2).length ≤ s.length) ∧
    (∀ (T : Type) (m : Nat) (s : Store T), KeysOk s → s.length = m → 1 ≤ m →
       evictWhile m s = evictLru s ∧ (evictWhile m s).length + 1 = s.length ∧
       ∃ (pre : Store T) (e : String × CacheEntry T) (suf : Store T),
         s = pre ++ e :: suf ∧ evictLru s = pre ++ suf ∧
         (∀ p ∈ pre, e.2.lastAccess < p.2.lastAccess) ∧
         (∀ p ∈ suf, e.2.lastAccess ≤ p.2.lastAccess)) ∧
    (∀ (T : Type) (m : Nat) (v : T) (ks : List String), 1 ≤ m → ks.Nodup → "" ∉ ks →
       ks.length = m + 1 → (insertKeys m v ks ([] : Store T)).length = m) ∧
    (∀ (T : Type) (s : Store T) (a b : String × CacheEntry T), KeysOk s → a ∈ s → b ∈ s →
       b.2.lastAccess < a.2.lastAccess → a ∈ evictLru s) ∧
    (∀ (T : Type) (s : Store T) (k : String) (v : T) (now ttl : Nat),
       cacheSet s k v now ttl = cacheSetWith 500 s k v now ttl) := by
  refine ⟨?_, ?_, ?_, ?_, ?_, ?_⟩
  · intro T m s k v now ttl hm hk hlen
    exact cacheSetWith_bound m s k v now ttl hm hk hlen
  · intro T s k now
    exact cacheGet_length_le s k now
  · intro T m s hk hlen hm
    have hne : s ≠ [] := by
      intro h0
      rw [h0] at hlen
      simp at hlen
      omega
    obtain ⟨heq, hl⟩ := evictWhile_at_cap m s hk hlen hm
    obtain ⟨pre, e, suf, h1, h2, h3, h4⟩ := evictLru_spec s hk hne
    exact ⟨heq, hl, pre, e, suf, h1, h2, h3, h4⟩
  · intro T m v ks hm hnodup hnil hlen
    exact insertKeys_full m v ks hm hnodup hnil hlen
  · intro T s a b hk ha hb hlt
    exact evictLru_survives s hk a b ha hb hlt
  · intro T s k v now ttl
    rfl

/-- C4 witness: at capacity 2, a set on a full two-entry store stays within
the bound; inserting three distinct keys into the empty capacity-2 cache
leaves two entries; and the more recently accessed of two entries survives
an eviction. -/
theorem c4_lru_eviction_witness :
    (cacheSetWith 2 [("a", ⟨(1 : Nat), 0, 0, 10⟩), ("b", ⟨2, 0, 0, 20⟩)] "c" 3 30 0).length
      ≤ 2 ∧
    (insertKeys 2 (0 : Nat) ["a", "b", "c"] []).length = 2 ∧
    ("b", (⟨(2 : Nat), 0, 0, 20⟩ : CacheEntry Nat)) ∈
      evictLru [("a", ⟨(1 : Nat), 0, 0, 10⟩), ("b", ⟨2, 0, 0, 20⟩)] :=
  ⟨c4_lru_eviction.1 Nat 2 [("a", ⟨1, 0, 0, 10⟩), ("b", ⟨2, 0, 0, 20⟩)] "c" 3 30 0
     (by decide) (by decide) (by decide),
   c4_lru_eviction.2.2.2.1 Nat 2 0 ["a", "b", "c"] (by decide) (by decide) (by decide)
     (by decide),
   c4_lru_eviction.2.2.2.2.1 Nat [("a", ⟨1, 0, 0, 10⟩), ("b", ⟨2, 0, 0, 20⟩)]
     ("b", ⟨2, 0, 0, 20⟩) ("a", ⟨1, 0, 0, 10⟩) (by decide) (by decide) (by decide)
     (by decide)⟩

end Mcp
